import Mathlib

/-!
Verification of the hemostatic-urology literature-retrieval repository.

This file shallowly embeds the query-batching and retrieval core of the
repository (`src/query_builder.py`, `src/search.py`,
`src/eutils_retrieval/search.py`) in Lean and settles the specification
claims about it.  Python strings are modelled as Lean `String`s (lists of
characters); Python's `str.split`, `str.strip`, `str.startswith` and
`urllib.parse.quote` are re-implemented character by character; the
network layer is abstracted as oracles supplying per-attempt outcomes and
per-batch result lists, exactly at the boundary where the code consumes
them.
-/

namespace Hulr

/-- `leadsWith pat l` is true when `pat` is an initial segment of `l`
(used to model substring search the way Python's `str.split` scans). -/
def leadsWith : List Char → List Char → Bool
  | [], _ => true
  | _ :: _, [] => false
  | a :: as, b :: bs => a == b && leadsWith as bs

/-- `containsSeq pat l` is true when `pat` occurs as a contiguous
subsequence of `l` (Python's `pat in l`). -/
def containsSeq (pat : List Char) : List Char → Bool
  | [] => leadsWith pat []
  | c :: rest => leadsWith pat (c :: rest) || containsSeq pat rest

/-- String-level wrapper for `containsSeq`. -/
def containsSeqS (pat s : String) : Bool := containsSeq pat.data s.data

/-- Fuel-indexed splitter implementing Python's `str.split(sep)` for a
non-empty separator: scan left to right, cut at each (non-overlapping)
occurrence of `sep`.  The fuel is an upper bound on the scanned length so
that the recursion is structural and kernel-computable. -/
def splitOnFuel (sep : List Char) : Nat → List Char → List (List Char)
  | 0, s => [s]
  | _ + 1, [] => [[]]
  | fuel + 1, c :: rest =>
    if sep ≠ [] ∧ leadsWith sep (c :: rest) = true then
      [] :: splitOnFuel sep fuel (List.drop (sep.length - 1) rest)
    else
      (c :: (splitOnFuel sep fuel rest).headD []) :: (splitOnFuel sep fuel rest).tail

/-- Python's `s.split(sep)` on character lists. -/
def splitOnCL (sep s : List Char) : List (List Char) := splitOnFuel sep s.length s

/-- Python's `s.split(sep)` on strings. -/
def pySplit (sep s : String) : List String :=
  (splitOnCL sep.data s.data).map (fun l => ⟨l⟩)

/-- Python's `s.strip(set)`: drop characters of `set` from both ends
(left pass). -/
def dropEndWhile (p : Char → Bool) (l : List Char) : List Char :=
  (l.reverse.dropWhile p).reverse

/-- Python's `s.strip(set)` on character lists. -/
def stripCL (set l : List Char) : List Char :=
  dropEndWhile (fun c => set.contains c) (l.dropWhile (fun c => set.contains c))

/-- Python's `s.strip(set)` on strings. -/
def pyStrip (set s : String) : String := ⟨stripCL set.data s.data⟩

/-- Python's `s.startswith(pre)`. -/
def pyStartsWith (s pre : String) : Bool := leadsWith pre.data s.data

/-- Characters `urllib.parse.quote` leaves unencoded with the default
`safe='/'`: ASCII letters, digits, `_.-~` and `/`. -/
def quoteSafe (c : Char) : Bool :=
  c.isAlphanum || c == '_' || c == '.' || c == '-' || c == '~' || c == '/'

/-- Length contributed by one character to `urllib.parse.quote`: safe
characters stay themselves; every other character is percent-encoded as
three output characters per UTF-8 byte. -/
def quoteCharLen (c : Char) : Nat := if quoteSafe c then 1 else 3 * c.utf8Size

/-- `len(urllib.parse.quote(s))` on character lists. -/
def quoteLenCL (l : List Char) : Nat := (l.map quoteCharLen).sum

/-- `len(urllib.parse.quote(s))` on strings. -/
def quoteLen (s : String) : Nat := quoteLenCL s.data

/-- Python's `f'"{t}"'` from `create_query`. -/
def quoteTerm (t : String) : String := "\"" ++ t ++ "\""

/-- Python's `sep.join(l)`. -/
def joinSep (sep : String) : List String → String
  | [] => ""
  | [x] => x
  | x :: y :: xs => x ++ sep ++ joinSep sep (y :: xs)

/-- `create_query` from `src/query_builder.py`: quote every device and
indicator term, OR-join each side, and AND-join the two parenthesized
groups. -/
def createQuery (devices indicators : List String) : String :=
  "(" ++ joinSep " OR " (devices.map quoteTerm) ++ ") AND ("
      ++ joinSep " OR " (indicators.map quoteTerm) ++ ")"

/-- `_build_batch` from `src/query_builder.py`: OR-join the collected
terms of each side, AND-join the parenthesized groups, and re-attach the
date clause when it is non-empty. -/
def buildBatch (devices indicators : List String) (datePart : String) : String :=
  let batchTerm := "(" ++ joinSep " OR " devices ++ ") AND (" ++ joinSep " OR " indicators ++ ")"
  if datePart ≠ "" then batchTerm ++ " AND " ++ datePart else batchTerm

/-- Walk two lists in lockstep by index, as `range(max(len(a), len(b)))`
does in `split_terms`; a side that is exhausted yields `none`. -/
def zipOpt : List α → List β → List (Option α × Option β)
  | [], bs => bs.map (fun b => (none, some b))
  | a :: as, [] => (some a, none) :: zipOpt as []
  | a :: as, b :: bs => (some a, some b) :: zipOpt as bs

/-- The estimated encoded length `split_terms` charges for one stored
term: `len(urllib.parse.quote(term)) + 4`. -/
def termCost (t : String) : Nat := quoteLen t + 4

/-- The accumulated estimated encoded length of a batch side. -/
def batchCost (l : List String) : Nat := (l.map termCost).sum

/-- One side of a `split_terms` loop iteration: strip the term, compute
its estimated encoded length (+4 overhead), and append it to the current
batch when the running length stays strictly under the budget.  Returns
the updated batch, the updated running length, and the `added` flag. -/
def tryAdd (batchSize : Nat) (ot : Option String) (cur : List String) (curLen : Nat) :
    List String × Nat × Bool :=
  match ot with
  | none => (cur, curLen, false)
  | some t =>
    let t' := pyStrip "() " t
    let tl := quoteLen t' + 4
    if curLen + tl < batchSize then (cur ++ [t'], curLen + tl, true) else (cur, curLen, false)

/-- The index loop of `split_terms`: at every index try to add the
device-side and indicator-side terms independently; when neither side
accepted a term, or this is the final index and the device batch is
non-empty, close the batch — emitting it only when both sides are
non-empty — and reset the running state. -/
def splitLoop (batchSize : Nat) :
    List (Option String × Option String) → List String → List String → Nat →
    List (List String × List String)
  | [], _, _, _ => []
  | (od, oi) :: rest, curD, curI, curLen =>
    let r1 := tryAdd batchSize od curD curLen
    let r2 := tryAdd batchSize oi curI r1.2.1
    if (r1.2.2 || r2.2.2) = false ∨ (rest = [] ∧ r1.1 ≠ []) then
      if r1.1 ≠ [] ∧ r2.1 ≠ [] then
        (r1.1, r2.1) :: splitLoop batchSize rest [] [] 0
      else
        splitLoop batchSize rest r1.1 r2.1 r2.2.1
    else
      splitLoop batchSize rest r1.1 r2.1 r2.2.1

/-- The `" AND "`-separated parts of the query, as computed by
`term.split(" AND ")` in `split_terms`. -/
def parsedParts (term : String) : List String := pySplit " AND " term

/-- `device_part = parts[0].strip("()")` then `.split(" OR ")`. -/
def deviceTermsOf (term : String) : List String :=
  pySplit " OR " (pyStrip "()" ((parsedParts term).getD 0 ""))

/-- `indicator_part = parts[1].strip("()")` then `.split(" OR ")`. -/
def indicatorTermsOf (term : String) : List String :=
  pySplit " OR " (pyStrip "()" ((parsedParts term).getD 1 ""))

/-- `date_part = parts[2] if len(parts) > 2 else ""`. -/
def datePartOf (term : String) : String :=
  if 2 < (parsedParts term).length then (parsedParts term).getD 2 "" else ""

/-- The sequence of (device-terms, indicator-terms) batches accumulated
by the `split_terms` loop. -/
def splitPairs (term : String) (batchSize : Nat) : List (List String × List String) :=
  splitLoop batchSize (zipOpt (deviceTermsOf term) (indicatorTermsOf term)) [] [] 0

/-- `split_terms` from `src/query_builder.py`.  The `apiKey` parameter
mirrors the source exactly: its reserved query-parameter length is
computed (`api_key_length`) but never used afterwards. -/
def splitTerms (term : String) (batchSize : Nat) (apiKey : Option String) : List String :=
  let parts := parsedParts term
  if parts.length < 2 then [term]
  else
    let _apiKeyLength := match apiKey with
      | some k => ("&api_key=" ++ k).length
      | none => 0
    (splitPairs term batchSize).map (fun p => buildBatch p.1 p.2 (datePartOf term))

/-- One typed cross-reference identifier of a raw remote record
(an element of `article_data["articleids"]`). -/
structure ArticleId where
  idtype : String
  value : String
deriving DecidableEq, Repr

/-- A raw remote summary record: the fields of `article_data` that
`_format_article` reads. -/
structure RawArticle where
  uid : String
  articleids : List ArticleId
deriving DecidableEq, Repr

/-- A normalized article result: the `{"pmcid": ..., "pmid": ...}`
dictionary produced by `_format_article` (`pmid` is `None`-able). -/
structure Article where
  pmcid : String
  pmid : Option String
deriving DecidableEq, Repr

/-- `SearchManager._format_article` from `src/search.py`: scan the
cross-reference identifiers, overwriting `pmid` at every entry of kind
`"pmid"` whose value is not `"0"`; prepend `"PMC"` to the uid unless it
already starts with it. -/
def formatArticle (a : RawArticle) : Article :=
  { pmcid := if pyStartsWith a.uid "PMC" = false then "PMC" ++ a.uid else a.uid
    pmid := a.articleids.foldl
      (fun pmid aid => if aid.idtype = "pmid" ∧ aid.value ≠ "0" then some aid.value else pmid)
      none }

/-- One step of the merge loop of `batch_search`: append the article to
the accumulated results unless its pmcid is already in the seen-set. -/
def dedupInsert (st : List Article × List String) (a : Article) : List Article × List String :=
  if a.pmcid ∈ st.2 then st else (st.1 ++ [a], st.2 ++ [a.pmcid])

/-- The merge phase of `SearchManager.batch_search`: fold every batch's
result list into one accumulator, suppressing duplicate pmcids with a
seen-set (first occurrence wins).  The batch result lists are supplied in
completion order, over which the claims quantify. -/
def mergeBatches (batchResults : List (List Article)) : List Article :=
  (batchResults.foldl (fun st br => br.foldl dedupInsert st) ([], [])).1

/-- What one attempt inside `_process_batch` observes from the network:
a raised `RequestException`, a falsy `client.search` result, or the list
of raw summary records (`[]` models a falsy `fetch_summary` result). -/
inductive FetchOutcome where
  | requestError
  | searchFalsy
  | summary (records : List RawArticle)
deriving DecidableEq, Repr

/-- The attempt loop of `SearchManager._process_batch`, parameterized by
an oracle giving each attempt's outcome: a raised `RequestException`, a
falsy search result, or falsy (empty) summary data all `continue` to the
next attempt; non-empty summary data is formatted and returned. -/
def processBatchFrom (outcome : Nat → FetchOutcome) (attempt : Nat) :
    Nat → List Article
  | 0 => []
  | remaining + 1 =>
    match outcome attempt with
    | .requestError => processBatchFrom outcome (attempt + 1) remaining
    | .searchFalsy => processBatchFrom outcome (attempt + 1) remaining
    | .summary records =>
      if records = [] then processBatchFrom outcome (attempt + 1) remaining
      else records.map formatArticle

/-- `SearchManager._process_batch`: run `retries + 1` attempts
(`for attempt in range(retries + 1)`), returning `[]` when all are
exhausted; no exception escapes. -/
def processBatch (outcome : Nat → FetchOutcome) (retries : Nat) : List Article :=
  processBatchFrom outcome 0 (retries + 1)

/-- Python truthiness of an `Optional[int]`: `None` and `0` are falsy. -/
def pyTruthyInt : Option Int → Bool
  | none => false
  | some n => n != 0

/-- The query transformation of `SearchManager.search_pmc` (and of
`search_pubmed_pmc` in `src/eutils_retrieval/search.py`): when at least
one (truthy) year is given, build the date clause — `start[PDAT]`, a `:`
only when both years are present, `end[PDAT]` — and append it to the
parenthesized query with `" AND "`. -/
def searchPmcQuery (query : String) (startYear endYear : Option Int) : String :=
  if pyTruthyInt startYear || pyTruthyInt endYear then
    "(" ++ query ++ ") AND "
      ++ ((if pyTruthyInt startYear then toString (startYear.getD 0) ++ "[PDAT]" else "")
        ++ (if pyTruthyInt startYear && pyTruthyInt endYear then ":" else "")
        ++ (if pyTruthyInt endYear then toString (endYear.getD 0) ++ "[PDAT]" else ""))
  else query

/-- Python truthiness of a `str`: the empty string is falsy. -/
def pyTruthyStr (s : String) : Bool := s != ""

/-- Python truthiness of an `Optional[str]`: `None` and `""` are falsy. -/
def pyTruthyOptStr : Option String → Bool
  | none => false
  | some s => s != ""

/-- The output filter of `SearchManager.search_pubmed_pmc`
(`src/search.py`): keep only entries whose `pmcid` and `pmid` are both
truthy. -/
def searchPubmedPmcFilter (results : List Article) : List Article :=
  results.filter (fun info => pyTruthyStr info.pmcid && pyTruthyOptStr info.pmid)

/-- The character-list image of the `" AND "` separator. -/
def sepANDl : List Char := [' ', 'A', 'N', 'D', ' ']

/-- The character-list image of the `" OR "` separator. -/
def sepORl : List Char := [' ', 'O', 'R', ' ']

/-- The character-list image of a quoted term `f'"{t}"'`. -/
def qtCL (t : List Char) : List Char := '"' :: t ++ ['"']

/-- The character-list image of `" OR ".join` over quoted terms. -/
def orJoinQ : List (List Char) → List Char
  | [] => []
  | [t] => qtCL t
  | t :: u :: ts => qtCL t ++ sepORl ++ orJoinQ (u :: ts)

/-! ## Theorems -/

/-- Claim C8: a query that splits into fewer than two parts on the
`" AND "` separator is returned unchanged as a single-element list by
`split_terms`, regardless of the budget and the API key; the fallback is
total, so no error propagates. -/
theorem splitTerms_fallback (term : String) (batchSize : Nat) (apiKey : Option String)
    (h : (parsedParts term).length < 2) :
    splitTerms term batchSize apiKey = [term] := by
  simp [splitTerms, h]

/-- Witness for C8 at the concrete query of the repository's
`test_split_terms_invalid_query`. -/
theorem splitTerms_fallback_witness :
    (parsedParts "(\"Hemoblast\" OR \"Gelfoam\")").length < 2 ∧
      splitTerms "(\"Hemoblast\" OR \"Gelfoam\")" 1000 none = ["(\"Hemoblast\" OR \"Gelfoam\")"] :=
  ⟨by decide, splitTerms_fallback "(\"Hemoblast\" OR \"Gelfoam\")" 1000 none (by decide)⟩

/-- Claim C5 (code bug): `split_terms` computes `api_key_length` but
never uses it, so the output never depends on the API key — acceptance
decisions are made against the full `batch_size`, not the reduced budget
the spec describes.  Concretely, with `batch_size = 25` and an API key,
both terms of `("aa") AND ("bb")` (estimated cost 12 + 12 = 24 < 25) are
accepted, although the spec-mandated reduced budget 25 - len("&api_key=k")
= 14 would reject the second. -/
theorem splitTerms_ignores_apiKey :
    (∀ (term : String) (batchSize : Nat) (apiKey : Option String),
        splitTerms term batchSize apiKey = splitTerms term batchSize none) ∧
      splitTerms "(\"aa\") AND (\"bb\")" 25 (some "k") = ["(\"aa\") AND (\"bb\")"] ∧
      quoteLen "\"aa\"" + 4 + (quoteLen "\"bb\"" + 4) = 24 ∧
      ¬ (quoteLen "\"aa\"" + 4 + (quoteLen "\"bb\"" + 4)
          < 25 - ("&api_key=" ++ "k").length) :=
  ⟨fun _ _ _ => rfl, by decide, by decide, by decide⟩

/-- The pmid-scanning fold of `_format_article` keeps the value of the
last matching cross-reference: it equals the `getLast?` of the filtered
identifier list (or the initial accumulator when none matches). -/
theorem pmidFold_eq_getLast (l : List ArticleId) (init : Option String) :
    l.foldl
        (fun pmid aid => if aid.idtype = "pmid" ∧ aid.value ≠ "0" then some aid.value else pmid)
        init
      = ((l.filter fun aid => decide (aid.idtype = "pmid" ∧ aid.value ≠ "0")).getLast?).elim
          init (fun x => some x.value) := by
  induction l using List.reverseRecOn generalizing init with
  | nil => rfl
  | append_singleton l a ih =>
    by_cases h : a.idtype = "pmid" ∧ a.value ≠ "0"
    · simp [List.foldl_append, List.filter_append, h, List.getLast?_concat, ih]
    · simp [List.foldl_append, List.filter_append, h, ih]

/-- Claim C6 counterexample: on a record with two non-sentinel pmid
cross-references, `_format_article` returns the value of the LAST one
("789"), not the first ("456") as the claim states. -/
theorem formatArticle_first_wins_cex :
    formatArticle ⟨"123", [⟨"pmid", "456"⟩, ⟨"pmid", "789"⟩]⟩ = ⟨"PMC123", some "789"⟩ ∧
      (⟨"PMC123", some "789"⟩ : Article) ≠ ⟨"PMC123", some "456"⟩ :=
  ⟨by decide, by decide⟩

/-- Claim C6 (amended: the LAST matching pmid cross-reference wins, not
the first): `_format_article` prepends `"PMC"` to the uid exactly when it
does not already start with it, and returns as pmid the value of the last
cross-reference of kind `"pmid"` whose value is not `"0"` (absent when
there is none); the claim's concrete scenarios hold. -/
theorem formatArticle_normalizes (a : RawArticle) :
    (formatArticle a).pmcid
        = (if pyStartsWith a.uid "PMC" = false then "PMC" ++ a.uid else a.uid) ∧
      (formatArticle a).pmid
        = ((a.articleids.filter fun aid =>
              decide (aid.idtype = "pmid" ∧ aid.value ≠ "0")).getLast?).map ArticleId.value ∧
      formatArticle ⟨"123", [⟨"pmid", "456"⟩]⟩ = ⟨"PMC123", some "456"⟩ ∧
      formatArticle ⟨"124", []⟩ = ⟨"PMC124", none⟩ := by
  refine ⟨rfl, ?_, by decide, by decide⟩
  show a.articleids.foldl _ none = _
  rw [pmidFold_eq_getLast]
  cases (a.articleids.filter fun aid =>
      decide (aid.idtype = "pmid" ∧ aid.value ≠ "0")).getLast? <;> rfl

/-- Claim C9: when at least one year is given (Python-truthy), the query
is wrapped in parentheses and exactly one date clause is appended with
`" AND "`: `start[PDAT]:end[PDAT]` when both years are present (the
inclusive range), and the single-sided `year[PDAT]` clause otherwise;
with no year given the query is unchanged. -/
theorem searchPmc_dateRendering (q : String) (s e : Int) (hs : s ≠ 0) (he : e ≠ 0) :
    searchPmcQuery q (some s) (some e)
        = "(" ++ q ++ ") AND " ++ (toString s ++ "[PDAT]" ++ ":" ++ (toString e ++ "[PDAT]")) ∧
      searchPmcQuery q (some s) none = "(" ++ q ++ ") AND " ++ (toString s ++ "[PDAT]") ∧
      searchPmcQuery q none (some e) = "(" ++ q ++ ") AND " ++ (toString e ++ "[PDAT]") ∧
      searchPmcQuery q none none = q := by
  have hs' : (s != 0) = true := bne_iff_ne.mpr hs
  have he' : (e != 0) = true := bne_iff_ne.mpr he
  refine ⟨?_, ?_, ?_, rfl⟩ <;>
    simp [searchPmcQuery, pyTruthyInt, hs', he', String.append_empty, String.empty_append,
      String.append_assoc]

/-- Witness for C9 at concrete years 2020 and 2023. -/
theorem searchPmc_dateRendering_witness :
    (2020 : Int) ≠ 0 ∧ (2023 : Int) ≠ 0 ∧
      searchPmcQuery "Q" (some 2020) (some 2023)
        = "(" ++ "Q" ++ ") AND " ++ (toString (2020 : Int) ++ "[PDAT]" ++ ":"
            ++ (toString (2023 : Int) ++ "[PDAT]")) :=
  ⟨by decide, by decide, (searchPmc_dateRendering "Q" 2020 2023 (by decide) (by decide)).1⟩

/-- Claim C10: every article surviving the output filter of
`SearchManager.search_pubmed_pmc` has a non-empty pmcid and a non-`None`
pmid (entries with absent pmid are removed). -/
theorem searchPubmedPmc_output_filter (results : List Article) :
    ∀ a ∈ searchPubmedPmcFilter results, a.pmcid ≠ "" ∧ a.pmid ≠ none := by
  intro a ha
  rw [searchPubmedPmcFilter, List.mem_filter] at ha
  obtain ⟨-, hcond⟩ := ha
  rw [Bool.and_eq_true] at hcond
  refine ⟨bne_iff_ne.mp hcond.1, ?_⟩
  cases h : a.pmid with
  | none => rw [h] at hcond; exact absurd hcond.2 (by simp [pyTruthyOptStr])
  | some s => simp

/-- Witness for C10 on a concrete result list. -/
theorem searchPubmedPmc_output_filter_witness :
    ("PMC123" : String) ≠ "" ∧ (some "456" : Option String) ≠ none :=
  searchPubmedPmc_output_filter [⟨"PMC123", some "456"⟩, ⟨"PMC124", none⟩]
    ⟨"PMC123", some "456"⟩ (by decide)

/-- Claim C1 counterexample: at budget 13 the device term of
`("aa") AND ("bb")` is accepted (cost 12 < 13) but the indicator term is
not (12 + 12 = 24 ≥ 13), so the final flush finds an empty indicator
side, discards the batch, and `split_terms` returns no batches at all —
both parsed input term lists are dropped, refuting the covering
property. -/
theorem splitTerms_covering_cex :
    splitTerms "(\"aa\") AND (\"bb\")" 13 none = [] ∧
      deviceTermsOf "(\"aa\") AND (\"bb\")" = ["\"aa\""] ∧
      indicatorTermsOf "(\"aa\") AND (\"bb\")" = ["\"bb\""] :=
  ⟨by decide, by decide, by decide⟩

/-- Folding the per-batch result lists one batch at a time is the same
as folding their concatenation article by article. -/
theorem foldl_dedup_flatten (brs : List (List Article)) (st : List Article × List String) :
    brs.foldl (fun st br => br.foldl dedupInsert st) st = brs.flatten.foldl dedupInsert st := by
  induction brs generalizing st with
  | nil => rfl
  | cons br brs ih => simp [List.foldl_append, ih]

/-- Master invariant of the merge loop: starting from an accumulator
whose seen-set holds exactly its pmcids (without duplicates), the fold
(1) keeps the pmcids duplicate-free, (2) only appends, in input order,
(3) covers the pmcid of every input article, (4) stores for each new
pmcid the first article of the input carrying it, and (5) appends no
article whose pmcid was already seen. -/
theorem dedup_foldl_master (l : List Article) (acc : List Article) (seen : List String)
    (hInv : ∀ id, id ∈ seen ↔ id ∈ acc.map Article.pmcid)
    (hNd : (acc.map Article.pmcid).Nodup) :
    (((l.foldl dedupInsert (acc, seen)).1.map Article.pmcid).Nodup) ∧
      (∃ t, (l.foldl dedupInsert (acc, seen)).1 = acc ++ t ∧ t.Sublist l) ∧
      (∀ a ∈ l, a.pmcid ∈ (l.foldl dedupInsert (acc, seen)).1.map Article.pmcid) ∧
      (∀ b ∈ (l.foldl dedupInsert (acc, seen)).1,
        b ∈ acc ∨ l.find? (fun a => a.pmcid == b.pmcid) = some b) ∧
      (∀ b ∈ (l.foldl dedupInsert (acc, seen)).1, b ∉ acc → b.pmcid ∉ seen) := by
  induction l generalizing acc seen with
  | nil =>
    refine ⟨hNd, ⟨[], by simp, List.nil_sublist _⟩, by simp, ?_, ?_⟩
    · intro b hb; exact Or.inl hb
    · intro b hb hnb; exact absurd hb hnb
  | cons a l ih =>
    by_cases hmem : a.pmcid ∈ seen
    · rw [List.foldl_cons, dedupInsert, if_pos hmem]
      obtain ⟨h1, ⟨t, ht, hts⟩, h3, h4, h5⟩ := ih acc seen hInv hNd
      refine ⟨h1, ⟨t, ht, hts.cons a⟩, ?_, ?_, h5⟩
      · intro x hx
        rcases List.mem_cons.mp hx with rfl | hx'
        · rw [ht, List.map_append]
          exact List.mem_append_left _ ((hInv x.pmcid).mp hmem)
        · exact h3 x hx'
      · intro b hb
        by_cases hacc : b ∈ acc
        · exact Or.inl hacc
        · rcases h4 b hb with hacc' | hfind
          · exact absurd hacc' hacc
          · refine Or.inr ?_
            have hne : (a.pmcid == b.pmcid) = false := by
              have : a.pmcid ≠ b.pmcid := fun hEq => (h5 b hb hacc) (hEq ▸ hmem)
              simpa using this
            rw [List.find?_cons, hne]
            exact hfind
    · rw [List.foldl_cons, dedupInsert, if_neg hmem]
      have hnacc : a.pmcid ∉ acc.map Article.pmcid := fun h => hmem ((hInv a.pmcid).mpr h)
      have hInv' : ∀ id, id ∈ seen ++ [a.pmcid] ↔ id ∈ (acc ++ [a]).map Article.pmcid := by
        intro id
        simp only [List.mem_append, List.mem_singleton, List.map_append, List.map_cons,
          List.map_nil, hInv]
      have hNd' : ((acc ++ [a]).map Article.pmcid).Nodup := by
        rw [List.map_append]
        rw [List.nodup_append]
        refine ⟨hNd, List.nodup_singleton _, ?_⟩
        intro x hx hx'
        simp only [List.map_cons, List.map_nil, List.mem_singleton] at hx'
        subst hx'
        exact hnacc hx
      show ((List.foldl dedupInsert (acc ++ [a], seen ++ [a.pmcid]) l).1.map
          Article.pmcid).Nodup ∧ _
      obtain ⟨h1, ⟨t, ht, hts⟩, h3, h4, h5⟩ := ih (acc ++ [a]) (seen ++ [a.pmcid]) hInv' hNd'
      refine ⟨h1, ⟨a :: t, by simpa [List.append_assoc] using ht, hts.cons₂ a⟩, ?_, ?_, ?_⟩
      · intro x hx
        rcases List.mem_cons.mp hx with rfl | hx'
        · rw [ht, List.map_append]
          exact List.mem_append_left _ (by simp)
        · exact h3 x hx'
      · intro b hb
        by_cases hacc : b ∈ acc
        · exact Or.inl hacc
        · refine Or.inr ?_
          by_cases hba : b ∈ acc ++ [a]
          · rcases List.mem_append.mp hba with h | h
            · exact absurd h hacc
            · rw [List.mem_singleton] at h
              subst h
              simp [List.find?_cons]
          · rcases h4 b hb with hacc' | hfind
            · exact absurd hacc' hba
            · have hb5 := h5 b hb hba
              have hne : (a.pmcid == b.pmcid) = false := by
                have : a.pmcid ≠ b.pmcid := by
                  intro hEq
                  exact hb5 (by simp [hEq])
                simpa using this
              rw [List.find?_cons, hne]
              exact hfind
      · intro b hb hnb
        by_cases hba : b ∈ acc ++ [a]
        · rcases List.mem_append.mp hba with h | h
          · exact absurd h hnb
          · rw [List.mem_singleton] at h
            subst h
            exact hmem
        · have := h5 b hb hba
          intro hseen
          exact this (List.mem_append_left _ hseen)

/-- Claim C2: the merge phase of `batch_search` yields at most one
article per distinct pmcid (duplicate-free pmcids), preserves insertion
order (the output is a sublist of the concatenated batch results), covers
the pmcid of every contributed record — so two batches contributing the
same pmcid yield it exactly once — and keeps for every pmcid the
first-seen article, hence its secondary id. -/
theorem mergeBatches_dedup (brs : List (List Article)) :
    ((mergeBatches brs).map Article.pmcid).Nodup ∧
      (mergeBatches brs).Sublist brs.flatten ∧
      (∀ a ∈ brs.flatten, a.pmcid ∈ (mergeBatches brs).map Article.pmcid) ∧
      (∀ b ∈ mergeBatches brs,
        brs.flatten.find? (fun a => a.pmcid == b.pmcid) = some b) := by
  have hm := dedup_foldl_master brs.flatten [] [] (by simp) (by simp)
  rw [← foldl_dedup_flatten] at hm
  obtain ⟨h1, ⟨t, ht, hts⟩, h3, h4, h5⟩ := hm
  rw [mergeBatches]
  refine ⟨h1, ?_, h3, ?_⟩
  · rw [show (brs.foldl (fun st br => br.foldl dedupInsert st) ([], [])).1 = t from by
      simpa using ht]
    exact hts
  · intro b hb
    rcases h4 b hb with h | h
    · exact absurd h (List.not_mem_nil b)
    · exact h

/-- Witness exercising C2 on two concrete batches sharing the pmcid
`"PMC1"` with different secondary ids: the first-seen article is the
one the merge keeps. -/
theorem mergeBatches_dedup_witness :
    ([[⟨"PMC1", some "11"⟩], [⟨"PMC1", some "22"⟩, ⟨"PMC2", none⟩]] :
        List (List Article)).flatten.find?
        (fun a => a.pmcid == (⟨"PMC1", some "11"⟩ : Article).pmcid) = some ⟨"PMC1", some "11"⟩ :=
  (mergeBatches_dedup [[⟨"PMC1", some "11"⟩], [⟨"PMC1", some "22"⟩, ⟨"PMC2", none⟩]]).2.2.2
    ⟨"PMC1", some "11"⟩ (by decide)

/-- When every attempt in a window raises, the attempt loop of
`_process_batch` falls through to the final `return []`. -/
theorem processBatchFrom_allFail (n attempt : Nat) (outcome : Nat → FetchOutcome)
    (h : ∀ i, attempt ≤ i → i < attempt + n → outcome i = .requestError) :
    processBatchFrom outcome attempt n = [] := by
  induction n generalizing attempt with
  | zero => rfl
  | succ n ih =>
    rw [processBatchFrom, h attempt (Nat.le_refl _) (by omega)]
    exact ih (attempt + 1) (fun i h1 h2 => h i (by omega) (by omega))

/-- Claim C3: a batch whose every attempt (up to the retry cap) raises a
transient request error makes `_process_batch` return the empty list —
no exception escapes — and merging with that empty contribution leaves
exactly the other batches' merged results. -/
theorem processBatch_partial_failure (outcome : Nat → FetchOutcome) (retries : Nat)
    (h : ∀ i, i < retries + 1 → outcome i = .requestError) :
    processBatch outcome retries = [] ∧
      ∀ before after : List (List Article),
        mergeBatches (before ++ processBatch outcome retries :: after)
          = mergeBatches (before ++ after) := by
  have hz : processBatch outcome retries = [] :=
    processBatchFrom_allFail (retries + 1) 0 outcome (fun i _ h2 => h i (by omega))
  refine ⟨hz, ?_⟩
  intro before after
  rw [hz, mergeBatches, mergeBatches, foldl_dedup_flatten, foldl_dedup_flatten]
  simp

/-- Witness for C3: with both attempts raising, the failed batch
contributes nothing and the other two batches' results survive. -/
theorem processBatch_partial_failure_witness :
    processBatch (fun _ => FetchOutcome.requestError) 1 = [] ∧
      mergeBatches
          ([[⟨"PMC1", some "456"⟩]] ++ processBatch (fun _ => FetchOutcome.requestError) 1
            :: [[⟨"PMC2", none⟩]])
        = mergeBatches ([[⟨"PMC1", some "456"⟩]] ++ [[⟨"PMC2", none⟩]]) :=
  ⟨(processBatch_partial_failure _ 1 (fun _ _ => rfl)).1,
    (processBatch_partial_failure _ 1 (fun _ _ => rfl)).2 [[⟨"PMC1", some "456"⟩]]
      [[⟨"PMC2", none⟩]]⟩

/-- `tryAdd` only ever appends to the current batch, and what it appends
is a sublist of the (stripped) offered term. -/
theorem tryAdd_fst_sub (bs : Nat) (ot : Option String) (cur : List String) (len : Nat) :
    ∃ ext, (tryAdd bs ot cur len).1 = cur ++ ext ∧
      ext.Sublist (ot.toList.map (pyStrip "() ")) := by
  cases ot with
  | none => exact ⟨[], by simp [tryAdd], List.nil_sublist _⟩
  | some t =>
    rw [tryAdd]
    split
    · exact ⟨[pyStrip "() " t], rfl, List.Sublist.refl _⟩
    · exact ⟨[], by simp, List.nil_sublist _⟩

/-- `tryAdd` keeps the running length equal to the accumulated cost of
the stored terms (plus whatever constant the other side contributes). -/
theorem tryAdd_len_eq (bs : Nat) (ot : Option String) (cur : List String) (len C : Nat)
    (h : len = batchCost cur + C) :
    (tryAdd bs ot cur len).2.1 = batchCost (tryAdd bs ot cur len).1 + C := by
  cases ot with
  | none => simpa [tryAdd] using h
  | some t =>
    rw [tryAdd]
    split
    · simp [batchCost, termCost, h]
      omega
    · simpa using h

/-- When `tryAdd` accepted a term, the new running length is strictly
under the budget. -/
theorem tryAdd_lt_of_added (bs : Nat) (ot : Option String) (cur : List String) (len : Nat)
    (h : (tryAdd bs ot cur len).2.2 = true) : (tryAdd bs ot cur len).2.1 < bs := by
  cases ot with
  | none => simp [tryAdd] at h
  | some t =>
    by_cases hc : len + (quoteLen (pyStrip "() " t) + 4) < bs
    · simp [tryAdd, hc]
    · simp [tryAdd, hc] at h

/-- When `tryAdd` rejected (or was offered no term), its state is
unchanged. -/
theorem tryAdd_stay (bs : Nat) (ot : Option String) (cur : List String) (len : Nat)
    (h : (tryAdd bs ot cur len).2.2 = false) :
    (tryAdd bs ot cur len).1 = cur ∧ (tryAdd bs ot cur len).2.1 = len := by
  cases ot with
  | none => exact ⟨rfl, rfl⟩
  | some t =>
    by_cases hc : len + (quoteLen (pyStrip "() " t) + 4) < bs
    · simp [tryAdd, hc] at h
    · simp [tryAdd, hc]

/-- Size invariant of the `split_terms` loop: whenever the running
length equals the accumulated cost of the in-progress batch and is under
the budget (or the batch is untouched), every batch the loop emits has
accumulated cost strictly under the budget. -/
theorem splitLoop_size_inv (bs : Nat) (l : List (Option String × Option String)) :
    ∀ curD curI curLen, curLen = batchCost curD + batchCost curI →
      (curLen < bs ∨ (curD = [] ∧ curI = [])) →
      ∀ p ∈ splitLoop bs l curD curI curLen, batchCost p.1 + batchCost p.2 < bs := by
  induction l with
  | nil => intro curD curI curLen _ _ p hp; simp [splitLoop] at hp
  | cons x rest ih =>
    obtain ⟨od, oi⟩ := x
    intro curD curI curLen hlen hbound p hp
    rw [splitLoop] at hp
    set r1 := tryAdd bs od curD curLen with hr1
    set r2 := tryAdd bs oi curI r1.2.1 with hr2
    have hlen1 : r1.2.1 = batchCost r1.1 + batchCost curI := by
      rw [hr1]; exact tryAdd_len_eq bs od curD curLen (batchCost curI) hlen
    have hlen2 : r2.2.1 = batchCost r1.1 + batchCost r2.1 := by
      have h2 := tryAdd_len_eq bs oi curI r1.2.1 (batchCost r1.1) (by omega)
      rw [← hr2] at h2
      omega
    have hbound2 : r2.2.1 < bs ∨ (r1.1 = [] ∧ r2.1 = []) := by
      by_cases hAI : r2.2.2 = true
      · have hlt := tryAdd_lt_of_added bs oi curI r1.2.1 hAI
        rw [← hr2] at hlt
        exact Or.inl hlt
      · obtain ⟨hI1, hI2⟩ := tryAdd_stay bs oi curI r1.2.1 (by simpa using hAI)
        rw [← hr2] at hI1 hI2
        by_cases hAD : r1.2.2 = true
        · have hlt := tryAdd_lt_of_added bs od curD curLen hAD
          rw [← hr1] at hlt
          exact Or.inl (by omega)
        · obtain ⟨hD1, hD2⟩ := tryAdd_stay bs od curD curLen (by simpa using hAD)
          rw [← hr1] at hD1 hD2
          rcases hbound with hlt | ⟨he1, he2⟩
          · exact Or.inl (by omega)
          · exact Or.inr ⟨by rw [hD1, he1], by rw [hI1, he2]⟩
    split at hp
    · split at hp
      · rcases List.mem_cons.mp hp with rfl | hp'
        · rcases hbound2 with hlt | ⟨he1, he2⟩
          · simpa [← hlen2] using hlt
          · exact absurd he1 (by tauto)
        · exact ih [] [] 0 (by simp [batchCost]) (Or.inr ⟨rfl, rfl⟩) p hp'
      · exact ih r1.1 r2.1 r2.2.1 hlen2 hbound2 p hp
    · exact ih r1.1 r2.1 r2.2.1 hlen2 hbound2 p hp

/-- Claim C4: every batch emitted by the `split_terms` loop has an
accumulated estimated encoded length — percent-encoded length of each
stored term plus the fixed per-term overhead of 4 — strictly under the
configured `batch_size` budget. -/
theorem splitPairs_size (term : String) (batchSize : Nat) :
    ∀ p ∈ splitPairs term batchSize, batchCost p.1 + batchCost p.2 < batchSize :=
  splitLoop_size_inv batchSize _ [] [] 0 (by simp [batchCost]) (Or.inr ⟨rfl, rfl⟩)

/-- Witness for C4 on a concrete split query. -/
theorem splitPairs_size_witness :
    (["\"a\""], ["\"b\""]) ∈ splitPairs "(\"a\") AND (\"b\")" 100 ∧
      batchCost ["\"a\""] + batchCost ["\"b\""] < 100 :=
  ⟨by decide, splitPairs_size "(\"a\") AND (\"b\")" 100 (["\"a\""], ["\"b\""]) (by decide)⟩

/-- The device components of the lockstep walk are exactly the device
term list, and likewise for the indicator side. -/
theorem zipOpt_nil_fst (cs : List β) :
    (cs.map (fun b => ((none : Option α), some b))).filterMap Prod.fst = [] := by
  induction cs <;> simp_all [List.filterMap_cons]

theorem zipOpt_nil_snd (cs : List β) :
    (cs.map (fun b => ((none : Option α), some b))).filterMap Prod.snd = cs := by
  induction cs <;> simp_all [List.filterMap_cons]

theorem zipOpt_filterMap (as : List α) (cs : List β) :
    (zipOpt as cs).filterMap Prod.fst = as ∧ (zipOpt as cs).filterMap Prod.snd = cs := by
  induction as generalizing cs with
  | nil => exact ⟨zipOpt_nil_fst cs, zipOpt_nil_snd cs⟩
  | cons a as ih =>
    cases cs with
    | nil =>
      have := ih []
      simp [zipOpt, List.filterMap_cons, this.1, this.2]
    | cons c cs =>
      have := ih cs
      simp [zipOpt, List.filterMap_cons, this.1, this.2]

/-- Subsequence invariant of the `split_terms` loop: on each side, the
terms of all emitted batches extend the in-progress batch by an
order-preserving selection of the (stripped) remaining input terms. -/
theorem splitLoop_subseq (bs : Nat) (l : List (Option String × Option String)) :
    ∀ curD curI curLen,
      (((splitLoop bs l curD curI curLen).map Prod.fst).flatten).Sublist
          (curD ++ (l.filterMap Prod.fst).map (pyStrip "() ")) ∧
        (((splitLoop bs l curD curI curLen).map Prod.snd).flatten).Sublist
          (curI ++ (l.filterMap Prod.snd).map (pyStrip "() ")) := by
  induction l with
  | nil => intro curD curI curLen; simp [splitLoop]
  | cons x rest ih =>
    obtain ⟨od, oi⟩ := x
    intro curD curI curLen
    rw [splitLoop]
    set r1 := tryAdd bs od curD curLen with hr1
    set r2 := tryAdd bs oi curI r1.2.1 with hr2
    obtain ⟨extD, hD, hDs⟩ := tryAdd_fst_sub bs od curD curLen
    obtain ⟨extI, hI, hIs⟩ := tryAdd_fst_sub bs oi curI r1.2.1
    rw [← hr1] at hD
    rw [← hr2] at hI
    have hfm : ((od, oi) :: rest).filterMap (Prod.fst (β := Option String))
        = od.toList ++ rest.filterMap Prod.fst := by
      cases od <;> simp [List.filterMap_cons]
    have hfs : ((od, oi) :: rest).filterMap (Prod.snd (α := Option String))
        = oi.toList ++ rest.filterMap Prod.snd := by
      cases oi <;> simp [List.filterMap_cons]
    have step : ∀ resD resI : List String,
        resD.Sublist (r1.1 ++ (rest.filterMap Prod.fst).map (pyStrip "() ")) →
        resI.Sublist (r2.1 ++ (rest.filterMap Prod.snd).map (pyStrip "() ")) →
        resD.Sublist (curD ++ (((od, oi) :: rest).filterMap Prod.fst).map (pyStrip "() ")) ∧
        resI.Sublist (curI ++ (((od, oi) :: rest).filterMap Prod.snd).map (pyStrip "() ")) := by
      intro resD resI hsD hsI
      constructor
      · refine hsD.trans ?_
        rw [hD, hfm, List.map_append, List.append_assoc]
        exact (List.Sublist.refl curD).append (hDs.append (List.Sublist.refl _))
      · refine hsI.trans ?_
        rw [hI, hfs, List.map_append, List.append_assoc]
        exact (List.Sublist.refl curI).append (hIs.append (List.Sublist.refl _))
    split
    · split
      · simp only [List.map_cons, List.flatten_cons]
        have hrec := ih [] [] 0
        refine step _ _ ?_ ?_
        · exact (List.Sublist.refl r1.1).append (by simpa using hrec.1)
        · exact (List.Sublist.refl r2.1).append (by simpa using hrec.2)
      · exact step _ _ (ih r1.1 r2.1 r2.2.1).1 (ih r1.1 r2.1 r2.2.1).2
    · exact step _ _ (ih r1.1 r2.1 r2.2.1).1 (ih r1.1 r2.1 r2.2.1).2

/-- Claim C1 (amended: terms may be dropped): on each side, the terms
across all batches emitted by the `split_terms` loop form an
order-preserving subsequence of the parsed (stripped) input term list —
no term is duplicated and original term order is kept, but a term that
does not fit the in-progress batch is skipped without retry and a
pending batch missing one side is discarded, so the union can fall short
of the input. -/
theorem splitPairs_subseq (term : String) (batchSize : Nat) :
    (((splitPairs term batchSize).map Prod.fst).flatten).Sublist
        ((deviceTermsOf term).map (pyStrip "() ")) ∧
      (((splitPairs term batchSize).map Prod.snd).flatten).Sublist
        ((indicatorTermsOf term).map (pyStrip "() ")) := by
  have h := splitLoop_subseq batchSize
    (zipOpt (deviceTermsOf term) (indicatorTermsOf term)) [] [] 0
  have hz := zipOpt_filterMap (deviceTermsOf term) (indicatorTermsOf term)
  rw [hz.1, hz.2] at h
  simpa [splitPairs] using h

/-- A list is led by itself followed by anything. -/
theorem leadsWith_append_self (l z : List Char) : leadsWith l (l ++ z) = true := by
  induction l with
  | nil => rfl
  | cons a as ih => simp [leadsWith, ih]

/-- A lead of `w ++ z` no longer than `w` is a lead of `w`. -/
theorem leadsWith_of_le (sep : List Char) :
    ∀ w z : List Char, sep.length ≤ w.length →
      leadsWith sep (w ++ z) = true → leadsWith sep w = true := by
  induction sep with
  | nil => intro w z _ _; rfl
  | cons s ss ih =>
    intro w z hlen h
    cases w with
    | nil => simp at hlen
    | cons c cw =>
      simp only [List.cons_append, leadsWith, Bool.and_eq_true] at h ⊢
      exact ⟨h.1, ih cw z (by simpa using hlen) h.2⟩

/-- `leadsWith` means being an initial segment. -/
theorem leadsWith_iff_exists (sep : List Char) :
    ∀ w : List Char, leadsWith sep w = true ↔ ∃ v, w = sep ++ v := by
  induction sep with
  | nil => intro w; simp [leadsWith]
  | cons s ss ih =>
    intro w
    cases w with
    | nil =>
      simp [leadsWith]
    | cons c cw =>
      simp only [leadsWith, Bool.and_eq_true, beq_iff_eq, List.cons_append, List.cons.injEq, ih]
      constructor
      · rintro ⟨rfl, v, rfl⟩; exact ⟨v, rfl, rfl⟩
      · rintro ⟨v, rfl, rfl⟩; exact ⟨rfl, v, rfl⟩

/-- `containsSeq` means having an occurrence: `w = u ++ sep ++ v`. -/
theorem containsSeq_iff_exists (sep : List Char) :
    ∀ w : List Char, containsSeq sep w = true ↔ ∃ u v, w = u ++ sep ++ v := by
  intro w
  induction w with
  | nil =>
    rw [containsSeq, leadsWith_iff_exists]
    constructor
    · rintro ⟨v, hv⟩; exact ⟨[], v, hv⟩
    · rintro ⟨u, v, huv⟩
      have h0 : (u = [] ∧ sep = []) ∧ v = [] := by
        simpa using List.append_eq_nil.mp huv.symm
      exact ⟨[], by simp [h0.1.2]⟩
  | cons c rest ih =>
    rw [containsSeq, Bool.or_eq_true, ih, leadsWith_iff_exists]
    constructor
    · rintro (⟨v, hv⟩ | ⟨u, v, huv⟩)
      · exact ⟨[], v, by simp [hv]⟩
      · exact ⟨c :: u, v, by simp [huv]⟩
    · rintro ⟨u, v, huv⟩
      cases u with
      | nil => exact Or.inl ⟨v, by simpa using huv⟩
      | cons c' u' =>
        simp only [List.cons_append, List.cons.injEq] at huv
        exact Or.inr ⟨u', v, huv.2⟩

/-- Injectivity of appending one final element. -/
theorem snoc_inj {l m : List Char} {a b : Char} (h : l ++ [a] = m ++ [b]) :
    l = m ∧ a = b := by
  have hrev := congrArg List.reverse h
  simp only [List.reverse_append, List.reverse_cons, List.reverse_nil, List.nil_append,
    List.cons_append, List.cons.injEq] at hrev
  exact ⟨List.reverse_injective hrev.2, hrev.1⟩

/-- Where an occurrence of `sep` in `a ++ b` can live: inside `a`,
inside `b`, or spanning the boundary with `sep = m1 ++ m2`, `a` ending in
`m1` and `b` starting with `m2`. -/
theorem occ_split {u sep v a b : List Char} (h : u ++ sep ++ v = a ++ b) :
    (∃ w, a = u ++ sep ++ w ∧ v = w ++ b) ∨
      (∃ w, u = a ++ w ∧ b = w ++ sep ++ v) ∨
      (∃ m1 m2, sep = m1 ++ m2 ∧ a = u ++ m1 ∧ b = m2 ++ v) := by
  rw [List.append_assoc] at h
  rcases List.append_eq_append_iff.mp h with ⟨w, hw1, hw2⟩ | ⟨w, hw1, hw2⟩
  · rcases List.append_eq_append_iff.mp hw2 with ⟨w2, hw3, hw4⟩ | ⟨w2, hw3, hw4⟩
    · exact Or.inl ⟨w2, by simp [hw1, hw3, List.append_assoc], hw4⟩
    · exact Or.inr (Or.inr ⟨w, w2, hw3, hw1, hw4⟩)
  · exact Or.inr (Or.inl ⟨w, hw1, by simp [hw2, List.append_assoc]⟩)

/-- All ways to cut `" AND "` into a prefix and a suffix. -/
theorem sepAND_split_cases (m1 m2 : List Char) (h : m1 ++ m2 = sepANDl) :
    m1 = [] ∧ m2 = sepANDl ∨ m1 = [' '] ∧ m2 = ['A', 'N', 'D', ' '] ∨
      m1 = [' ', 'A'] ∧ m2 = ['N', 'D', ' '] ∨ m1 = [' ', 'A', 'N'] ∧ m2 = ['D', ' '] ∨
      m1 = [' ', 'A', 'N', 'D'] ∧ m2 = [' '] ∨ m1 = sepANDl ∧ m2 = [] := by
  rw [sepANDl] at h ⊢
  rcases m1 with _ | ⟨c1, _ | ⟨c2, _ | ⟨c3, _ | ⟨c4, _ | ⟨c5, m6⟩⟩⟩⟩⟩ <;> simp_all

/-- All ways to cut `" OR "` into a prefix and a suffix. -/
theorem sepOR_split_cases (m1 m2 : List Char) (h : m1 ++ m2 = sepORl) :
    m1 = [] ∧ m2 = sepORl ∨ m1 = [' '] ∧ m2 = ['O', 'R', ' '] ∨
      m1 = [' ', 'O'] ∧ m2 = ['R', ' '] ∨ m1 = [' ', 'O', 'R'] ∧ m2 = [' '] ∨
      m1 = sepORl ∧ m2 = [] := by
  rw [sepORl] at h ⊢
  rcases m1 with _ | ⟨c1, _ | ⟨c2, _ | ⟨c3, _ | ⟨c4, m5⟩⟩⟩⟩ <;> simp_all

/-- The fuel of `splitOnFuel` is irrelevant once it covers the input
length: the splitter computes `splitOnCL`. -/
theorem splitOnFuel_eq (sep : List Char) (f : Nat) :
    ∀ s : List Char, s.length ≤ f → splitOnFuel sep f s = splitOnCL sep s := by
  induction f using Nat.strong_induction_on with
  | _ f ih =>
    intro s hs
    cases f with
    | zero =>
      have : s = [] := List.length_eq_zero.mp (Nat.le_zero.mp hs)
      subst this; rfl
    | succ f =>
      cases s with
      | nil => rfl
      | cons c rest =>
        rw [show splitOnCL sep (c :: rest) = splitOnFuel sep (rest.length + 1) (c :: rest)
          from rfl]
        have hs' : rest.length ≤ f := by
          simp only [List.length_cons] at hs
          omega
        by_cases hc : sep ≠ [] ∧ leadsWith sep (c :: rest) = true
        · simp only [splitOnFuel, if_pos hc]
          have hlen : (List.drop (sep.length - 1) rest).length ≤ rest.length := by
            rw [List.length_drop]; omega
          rw [ih f (by omega) _ (le_trans hlen hs'), ih rest.length (by omega) _ hlen]
        · simp only [splitOnFuel, if_neg hc]
          rw [ih f (by omega) rest hs', ih rest.length (by omega) rest (Nat.le_refl _)]

/-- When the separator leads the input, the splitter cuts it off. -/
theorem splitOnCL_of_leads (sep s : List Char) (hne : sep ≠ [])
    (h : leadsWith sep s = true) :
    splitOnCL sep s = [] :: splitOnCL sep (s.drop sep.length) := by
  cases s with
  | nil =>
    cases sep with
    | nil => exact absurd rfl hne
    | cons a as => simp [leadsWith] at h
  | cons c rest =>
    rw [show splitOnCL sep (c :: rest) = splitOnFuel sep (rest.length + 1) (c :: rest) from rfl]
    simp only [splitOnFuel, if_pos (And.intro hne h)]
    obtain ⟨k, hk⟩ : ∃ k, sep.length = k + 1 := by
      cases sep with
      | nil => exact absurd rfl hne
      | cons a as => exact ⟨as.length, rfl⟩
    rw [hk]
    simp only [Nat.add_sub_cancel, List.drop_succ_cons]
    congr 1
    exact splitOnFuel_eq sep rest.length _ (by rw [List.length_drop]; omega)

/-- When the separator does not lead the input, the splitter keeps the
first character on the first part. -/
theorem splitOnCL_not_leads (sep : List Char) (c : Char) (rest : List Char)
    (h : ¬ (sep ≠ [] ∧ leadsWith sep (c :: rest) = true)) :
    splitOnCL sep (c :: rest)
      = (c :: (splitOnCL sep rest).headD []) :: (splitOnCL sep rest).tail := by
  rw [show splitOnCL sep (c :: rest) = splitOnFuel sep (rest.length + 1) (c :: rest) from rfl]
  simp only [splitOnFuel, if_neg h]
  rfl

/-- A string with no occurrence of the separator splits into itself. -/
theorem splitOnCL_no_occ (sep : List Char) :
    ∀ s, containsSeq sep s = false → splitOnCL sep s = [s] := by
  intro s
  induction s with
  | nil => intro _; rfl
  | cons c rest ih =>
    intro h
    rw [containsSeq, Bool.or_eq_false_iff] at h
    have hnl : ¬ (sep ≠ [] ∧ leadsWith sep (c :: rest) = true) := by
      rintro ⟨-, hl⟩
      rw [h.1] at hl
      exact Bool.false_ne_true hl
    rw [splitOnCL_not_leads sep c rest hnl, ih h.2]
    rfl

/-- The splitter cuts exactly at a separator occurrence provided no
occurrence starts earlier (`x ++ sepa` is occurrence-free, where `sepa`
is the separator without its final character). -/
theorem splitOnCL_sep (sepa : List Char) (cl : Char) :
    ∀ x rest : List Char, containsSeq (sepa ++ [cl]) (x ++ sepa) = false →
      splitOnCL (sepa ++ [cl]) (x ++ (sepa ++ [cl]) ++ rest)
        = x :: splitOnCL (sepa ++ [cl]) rest := by
  intro x
  induction x with
  | nil =>
    intro rest _
    have hne : sepa ++ [cl] ≠ [] := by simp
    rw [List.nil_append]
    rw [splitOnCL_of_leads _ _ hne (leadsWith_append_self _ _)]
    rw [List.drop_left]
  | cons c x ih =>
    intro rest h
    simp only [List.cons_append] at h ⊢
    rw [containsSeq, Bool.or_eq_false_iff] at h
    have hnl : ¬ (sepa ++ [cl] ≠ []
        ∧ leadsWith (sepa ++ [cl]) (c :: (x ++ (sepa ++ [cl]) ++ rest)) = true) := by
      rintro ⟨-, hl⟩
      have hshape : c :: (x ++ (sepa ++ [cl]) ++ rest)
          = (c :: (x ++ sepa)) ++ ([cl] ++ rest) := by
        simp [List.append_assoc]
      rw [hshape] at hl
      have hlen : (sepa ++ [cl]).length ≤ (c :: (x ++ sepa)).length := by
        simp [List.length_append]
      have := leadsWith_of_le _ _ _ hlen hl
      rw [h.1] at this
      exact Bool.false_ne_true this
    rw [splitOnCL_not_leads _ c _ hnl, ih rest h.2]
    rfl

/-- Wrapping an occurrence-free string in characters that differ from
the separator's first and last characters keeps it occurrence-free. -/
theorem noOcc_wrap (s0 : Char) (sm : List Char) (sl : Char) (a b : Char) (t : List Char)
    (ha : s0 ≠ a) (hb : sl ≠ b)
    (ht : containsSeq (s0 :: (sm ++ [sl])) t = false) :
    containsSeq (s0 :: (sm ++ [sl])) (a :: (t ++ [b])) = false := by
  by_contra hcon
  rw [Bool.not_eq_false] at hcon
  obtain ⟨u, v, huv⟩ := (containsSeq_iff_exists _ _).mp hcon
  cases u with
  | nil =>
    rw [List.nil_append] at huv
    simp only [List.cons_append, List.cons.injEq] at huv
    exact ha huv.1.symm
  | cons a' u' =>
    simp only [List.cons_append, List.cons.injEq] at huv
    obtain ⟨rfl, hrest⟩ := huv
    rcases List.eq_nil_or_concat v with rfl | ⟨v', q, rfl⟩
    · rw [List.append_nil] at hrest
      have hshape : u' ++ (s0 :: (sm ++ [sl])) = (u' ++ (s0 :: sm)) ++ [sl] := by
        simp [List.append_assoc]
      rw [hshape] at hrest
      exact hb (snoc_inj hrest).2.symm
    · rw [List.concat_eq_append] at hrest
      have hshape : u' ++ (s0 :: (sm ++ [sl])) ++ (v' ++ [q])
          = (u' ++ (s0 :: (sm ++ [sl])) ++ v') ++ [q] := by
        simp [List.append_assoc]
      rw [hshape] at hrest
      obtain ⟨hteq, -⟩ := snoc_inj hrest
      have : containsSeq (s0 :: (sm ++ [sl])) t = true :=
        (containsSeq_iff_exists _ _).mpr ⟨u', v', hteq⟩
      rw [ht] at this
      exact Bool.false_ne_true this

/-- A quoted term containing no `" OR "` stays `" OR "`-free. -/
theorem noOcc_OR_qt (t : List Char) (ht : containsSeq sepORl t = false) :
    containsSeq sepORl (qtCL t) = false :=
  noOcc_wrap ' ' ['O', 'R'] ' ' '"' '"' t (by decide) (by decide) ht

/-- A quoted term containing no `" AND "` stays `" AND "`-free. -/
theorem noOcc_AND_qt (t : List Char) (ht : containsSeq sepANDl t = false) :
    containsSeq sepANDl (qtCL t) = false :=
  noOcc_wrap ' ' ['A', 'N', 'D'] ' ' '"' '"' t (by decide) (by decide) ht

/-- A parenthesized group over an `" AND "`-free body is `" AND "`-free. -/
theorem noOcc_AND_group (J : List Char) (hJ : containsSeq sepANDl J = false) :
    containsSeq sepANDl ('(' :: (J ++ [')'])) = false :=
  noOcc_wrap ' ' ['A', 'N', 'D'] ' ' '(' ')' J (by decide) (by decide) hJ

/-- A quoted term cannot end in a character other than `'"'`. -/
theorem qt_ne_snoc (t w m1 : List Char) (c : Char) (hc : c ≠ '"')
    (h : qtCL t = w ++ (m1 ++ [c])) : False := by
  have h' : ('"' :: t) ++ ['"'] = (w ++ m1) ++ [c] := by
    simpa [qtCL, List.append_assoc] using h
  exact hc ((snoc_inj h').2).symm

/-- A parenthesized group cannot end in a character other than `')'`. -/
theorem group_ne_snoc (J w m1 : List Char) (c : Char) (hc : c ≠ ')')
    (h : '(' :: (J ++ [')']) = w ++ (m1 ++ [c])) : False := by
  have h' : ('(' :: J) ++ [')'] = (w ++ m1) ++ [c] := by
    simpa [List.append_assoc] using h
  exact hc ((snoc_inj h').2).symm

/-- An OR-join of quoted terms starts with a quote character. -/
theorem orJoinQ_head (u : List Char) (ts : List (List Char)) :
    ∃ r, orJoinQ (u :: ts) = '"' :: r := by
  cases ts with
  | nil => exact ⟨u ++ ['"'], rfl⟩
  | cons x ts' =>
    exact ⟨(u ++ ['"']) ++ sepORl ++ orJoinQ (x :: ts'),
      by simp [orJoinQ, qtCL, List.append_assoc]⟩

/-- An OR-join of quoted terms ends with a quote character. -/
theorem orJoinQ_last (t : List Char) (ts : List (List Char)) :
    ∃ r, orJoinQ (t :: ts) = r ++ ['"'] := by
  induction ts generalizing t with
  | nil => exact ⟨'"' :: t, rfl⟩
  | cons u ts' ih =>
    obtain ⟨r, hr⟩ := ih u
    exact ⟨qtCL t ++ sepORl ++ r, by simp [orJoinQ, hr, List.append_assoc]⟩

/-- No `" AND "` occurrence can touch an `" OR "` separator followed by
a join (which starts with a quote). -/
theorem noOcc_AND_sepOR (J : List Char) (r : List Char) (hhead : J = '"' :: r)
    (hJ : containsSeq sepANDl J = false) :
    containsSeq sepANDl (sepORl ++ J) = false := by
  by_contra hcon
  rw [Bool.not_eq_false] at hcon
  obtain ⟨w, v, hwv⟩ := (containsSeq_iff_exists _ _).mp hcon
  rcases occ_split hwv.symm with ⟨w2, hw1, -⟩ | ⟨w2, -, hw2⟩ | ⟨m1, m2, hm, h1, h2⟩
  · have := congrArg List.length hw1
    simp [sepORl, sepANDl, List.length_append] at this
    omega
  · have : containsSeq sepANDl J = true :=
      (containsSeq_iff_exists _ _).mpr ⟨w2, v, hw2⟩
    rw [hJ] at this
    exact Bool.false_ne_true this
  · rcases sepAND_split_cases m1 m2 hm.symm with
      ⟨rfl, rfl⟩ | ⟨rfl, rfl⟩ | ⟨rfl, rfl⟩ | ⟨rfl, rfl⟩ | ⟨rfl, rfl⟩ | ⟨rfl, rfl⟩
    · have : containsSeq sepANDl J = true :=
        (containsSeq_iff_exists _ _).mpr ⟨[], v, by simpa using h2⟩
      rw [hJ] at this
      exact Bool.false_ne_true this
    · rw [hhead] at h2
      simp at h2
    · have h1' : [' ', 'O', 'R'] ++ [' '] = (w ++ [' ']) ++ ['A'] := by
        simpa [sepORl, List.append_assoc] using h1
      exact absurd (snoc_inj h1').2 (by decide)
    · have h1' : [' ', 'O', 'R'] ++ [' '] = (w ++ [' ', 'A']) ++ ['N'] := by
        simpa [sepORl, List.append_assoc] using h1
      exact absurd (snoc_inj h1').2 (by decide)
    · have h1' : [' ', 'O', 'R'] ++ [' '] = (w ++ [' ', 'A', 'N']) ++ ['D'] := by
        simpa [sepORl, List.append_assoc] using h1
      exact absurd (snoc_inj h1').2 (by decide)
    · have := congrArg List.length h1
      simp [sepORl, sepANDl, List.length_append] at this

/-- An OR-join of `" AND "`-free quoted terms is `" AND "`-free: the
separator's inner characters cannot appear in the quote/OR framing, so
any occurrence would have to sit inside one quoted term. -/
theorem noOcc_AND_orJoinQ : ∀ ts : List (List Char),
    (∀ t ∈ ts, containsSeq sepANDl t = false) →
      containsSeq sepANDl (orJoinQ ts) = false := by
  intro ts
  induction ts with
  | nil => intro _; rfl
  | cons t ts ih =>
    intro h
    cases ts with
    | nil => exact noOcc_AND_qt t (h t (by simp))
    | cons u ts' =>
      by_contra hcon
      rw [Bool.not_eq_false] at hcon
      obtain ⟨w, v, hwv⟩ := (containsSeq_iff_exists _ _).mp hcon
      rw [orJoinQ] at hwv
      have hJ : containsSeq sepANDl (orJoinQ (u :: ts')) = false :=
        ih (fun x hx => h x (by simp [hx]))
      obtain ⟨r, hr⟩ := orJoinQ_head u ts'
      have hb := noOcc_AND_sepOR (orJoinQ (u :: ts')) r hr hJ
      have hwv' : w ++ sepANDl ++ v = qtCL t ++ (sepORl ++ orJoinQ (u :: ts')) := by
        rw [← hwv]
        simp [List.append_assoc]
      rcases occ_split hwv' with ⟨w2, hw1, -⟩ | ⟨w2, -, hw2⟩ | ⟨m1, m2, hm, h1, h2⟩
      · have : containsSeq sepANDl (qtCL t) = true :=
          (containsSeq_iff_exists _ _).mpr ⟨w, w2, hw1⟩
        rw [noOcc_AND_qt t (h t (by simp))] at this
        exact Bool.false_ne_true this
      · have : containsSeq sepANDl (sepORl ++ orJoinQ (u :: ts')) = true :=
          (containsSeq_iff_exists _ _).mpr ⟨w2, v, hw2⟩
        rw [hb] at this
        exact Bool.false_ne_true this
      · rcases sepAND_split_cases m1 m2 hm.symm with
          ⟨rfl, rfl⟩ | ⟨rfl, rfl⟩ | ⟨rfl, rfl⟩ | ⟨rfl, rfl⟩ | ⟨rfl, rfl⟩ | ⟨rfl, rfl⟩
        · have : containsSeq sepANDl (sepORl ++ orJoinQ (u :: ts')) = true :=
            (containsSeq_iff_exists _ _).mpr ⟨[], v, by simpa using h2⟩
          rw [hb] at this
          exact Bool.false_ne_true this
        · exact qt_ne_snoc t w [] ' ' (by decide) h1
        · exact qt_ne_snoc t w [' '] 'A' (by decide) h1
        · exact qt_ne_snoc t w [' ', 'A'] 'N' (by decide) h1
        · exact qt_ne_snoc t w [' ', 'A', 'N'] 'D' (by decide) h1
        · exact qt_ne_snoc t w [' ', 'A', 'N', 'D'] ' ' (by decide) h1

/-- A quoted term followed by the opening characters of `" OR "` has no
full `" OR "` occurrence (needed to cut the join at the separator). -/
theorem noOcc_OR_qt_tail (t : List Char) (ht : containsSeq sepORl t = false) :
    containsSeq sepORl (qtCL t ++ [' ', 'O', 'R']) = false := by
  by_contra hcon
  rw [Bool.not_eq_false] at hcon
  obtain ⟨w, v, hwv⟩ := (containsSeq_iff_exists _ _).mp hcon
  rcases occ_split hwv.symm with ⟨w2, hw1, -⟩ | ⟨w2, -, hw2⟩ | ⟨m1, m2, hm, h1, h2⟩
  · have : containsSeq sepORl (qtCL t) = true :=
      (containsSeq_iff_exists _ _).mpr ⟨w, w2, hw1⟩
    rw [noOcc_OR_qt t ht] at this
    exact Bool.false_ne_true this
  · have := congrArg List.length hw2
    simp [sepORl, List.length_append] at this
    omega
  · rcases sepOR_split_cases m1 m2 hm.symm with
      ⟨rfl, rfl⟩ | ⟨rfl, rfl⟩ | ⟨rfl, rfl⟩ | ⟨rfl, rfl⟩ | ⟨rfl, rfl⟩
    · have := congrArg List.length h2
      simp [sepORl, List.length_append] at this
    · exact qt_ne_snoc t w [] ' ' (by decide) h1
    · exact qt_ne_snoc t w [' '] 'O' (by decide) h1
    · exact qt_ne_snoc t w [' ', 'O'] 'R' (by decide) h1
    · exact qt_ne_snoc t w [' ', 'O', 'R'] ' ' (by decide) h1

/-- A parenthesized `" AND "`-free group followed by the opening
characters of `" AND "` has no full `" AND "` occurrence (needed to cut
the composed query at the top-level separator). -/
theorem noOcc_AND_group_tail (J : List Char) (hJ : containsSeq sepANDl J = false) :
    containsSeq sepANDl (('(' :: (J ++ [')'])) ++ [' ', 'A', 'N', 'D']) = false := by
  by_contra hcon
  rw [Bool.not_eq_false] at hcon
  obtain ⟨w, v, hwv⟩ := (containsSeq_iff_exists _ _).mp hcon
  rcases occ_split hwv.symm with ⟨w2, hw1, -⟩ | ⟨w2, -, hw2⟩ | ⟨m1, m2, hm, h1, h2⟩
  · have : containsSeq sepANDl ('(' :: (J ++ [')'])) = true :=
      (containsSeq_iff_exists _ _).mpr ⟨w, w2, hw1⟩
    rw [noOcc_AND_group J hJ] at this
    exact Bool.false_ne_true this
  · have := congrArg List.length hw2
    simp [sepANDl, List.length_append] at this
    omega
  · rcases sepAND_split_cases m1 m2 hm.symm with
      ⟨rfl, rfl⟩ | ⟨rfl, rfl⟩ | ⟨rfl, rfl⟩ | ⟨rfl, rfl⟩ | ⟨rfl, rfl⟩ | ⟨rfl, rfl⟩
    · have := congrArg List.length h2
      simp [sepANDl, List.length_append] at this
    · exact group_ne_snoc J w [] ' ' (by decide) h1
    · exact group_ne_snoc J w [' '] 'A' (by decide) h1
    · exact group_ne_snoc J w [' ', 'A'] 'N' (by decide) h1
    · exact group_ne_snoc J w [' ', 'A', 'N'] 'D' (by decide) h1
    · exact group_ne_snoc J w [' ', 'A', 'N', 'D'] ' ' (by decide) h1

/-- The characters of a quoted term. -/
theorem data_quoteTerm (t : String) : (quoteTerm t).data = qtCL t.data := by
  have hq : ("\"" : String).data = ['"'] := rfl
  simp [quoteTerm, qtCL, String.data_append, hq]

/-- The characters of the OR-join of quoted terms. -/
theorem data_joinOR : ∀ ts : List String,
    (joinSep " OR " (ts.map quoteTerm)).data = orJoinQ (ts.map String.data) := by
  intro ts
  induction ts with
  | nil => rfl
  | cons t ts ih =>
    cases ts with
    | nil => exact data_quoteTerm t
    | cons u ts' =>
      show (quoteTerm t ++ " OR " ++ joinSep " OR " ((u :: ts').map quoteTerm)).data = _
      rw [String.data_append, String.data_append, data_quoteTerm, ih]
      rfl

/-- The characters of a composed query: two parenthesized joins around
the `" AND "` separator. -/
theorem createQuery_data (ds is : List String) :
    (createQuery ds is).data
      = ('(' :: (orJoinQ (ds.map String.data) ++ [')']))
        ++ sepANDl ++ ('(' :: (orJoinQ (is.map String.data) ++ [')'])) := by
  have h1 : ("(" : String).data = ['('] := rfl
  have h2 : (") AND (" : String).data = [')', ' ', 'A', 'N', 'D', ' ', '('] := rfl
  have h3 : (")" : String).data = [')'] := rfl
  simp [createQuery, String.data_append, h1, h2, h3, data_joinOR, sepANDl, List.append_assoc]

/-- Splitting a composed query on `" AND "` recovers exactly the two
parenthesized groups when neither join contains `" AND "`. -/
theorem parsedParts_createQuery (ds is : List String)
    (hd : containsSeq sepANDl (orJoinQ (ds.map String.data)) = false)
    (hi : containsSeq sepANDl (orJoinQ (is.map String.data)) = false) :
    parsedParts (createQuery ds is)
      = [⟨'(' :: (orJoinQ (ds.map String.data) ++ [')'])⟩,
          ⟨'(' :: (orJoinQ (is.map String.data) ++ [')'])⟩] := by
  rw [parsedParts, pySplit]
  have hsep : (" AND " : String).data = [' ', 'A', 'N', 'D'] ++ [' '] := rfl
  rw [hsep, createQuery_data]
  rw [show ('(' :: (orJoinQ (ds.map String.data) ++ [')']))
        ++ sepANDl ++ ('(' :: (orJoinQ (is.map String.data) ++ [')']))
      = ('(' :: (orJoinQ (ds.map String.data) ++ [')']))
        ++ ([' ', 'A', 'N', 'D'] ++ [' '])
        ++ ('(' :: (orJoinQ (is.map String.data) ++ [')'])) from rfl]
  rw [splitOnCL_sep [' ', 'A', 'N', 'D'] ' ' _ _ (noOcc_AND_group_tail _ hd)]
  rw [show ([' ', 'A', 'N', 'D'] ++ [' ']) = sepANDl from rfl]
  rw [splitOnCL_no_occ _ _ (noOcc_AND_group _ hi)]
  rfl

/-- `strip("()")` on a parenthesized join removes exactly the outer
parentheses, because the join starts and ends with a quote. -/
theorem stripCL_group (J r r' : List Char) (hh : J = '"' :: r) (hl : J = r' ++ ['"']) :
    stripCL ['(', ')'] ('(' :: (J ++ [')'])) = J := by
  rw [stripCL]
  have hdw : List.dropWhile (fun c => (['(', ')'] : List Char).contains c)
      ('(' :: (J ++ [')'])) = J ++ [')'] := by
    rw [List.dropWhile_cons]
    simp only [show (['(', ')'] : List Char).contains '(' = true from rfl, if_true]
    rw [hh, List.cons_append, List.dropWhile_cons]
    simp [show (['(', ')'] : List Char).contains '"' = false from rfl]
  rw [hdw, dropEndWhile]
  have hrev : (J ++ [')']).reverse = ')' :: ('"' :: r'.reverse) := by
    rw [hl]
    simp [List.reverse_append]
  rw [hrev, List.dropWhile_cons]
  simp only [show (['(', ')'] : List Char).contains ')' = true from rfl, if_true]
  rw [List.dropWhile_cons]
  simp only [show (['(', ')'] : List Char).contains '"' = false from rfl,
    Bool.false_eq_true, if_false]
  rw [show ('"' :: r'.reverse).reverse = r' ++ ['"'] from by simp]
  exact hl.symm

/-- `strip("() ")` leaves a quoted term unchanged. -/
theorem stripCL_qt (t : List Char) : stripCL ['(', ')', ' '] (qtCL t) = qtCL t := by
  rw [stripCL, qtCL, List.cons_append, List.dropWhile_cons]
  simp only [show (['(', ')', ' '] : List Char).contains '"' = false from rfl,
    Bool.false_eq_true, if_false]
  rw [dropEndWhile]
  have hrev : ('"' :: (t ++ ['"'])).reverse = '"' :: (t.reverse ++ ['"']) := by simp
  rw [hrev, List.dropWhile_cons]
  simp only [show (['(', ')', ' '] : List Char).contains '"' = false from rfl,
    Bool.false_eq_true, if_false]
  simp

/-- String-level: `strip("() ")` leaves a quoted term unchanged. -/
theorem pyStrip_quoteTerm (t : String) : pyStrip "() " (quoteTerm t) = quoteTerm t := by
  refine String.ext ?_
  show stripCL ("() " : String).data (quoteTerm t).data = (quoteTerm t).data
  rw [show ("() " : String).data = ['(', ')', ' '] from rfl, data_quoteTerm, stripCL_qt]

/-- Splitting the OR-join of quoted `" OR "`-free terms on `" OR "`
recovers exactly the quoted terms. -/
theorem splitOnCL_orJoinQ (t : String) (ts : List String)
    (h : ∀ x ∈ t :: ts, containsSeq sepORl x.data = false) :
    splitOnCL sepORl (orJoinQ ((t :: ts).map String.data))
      = (t :: ts).map (fun x => qtCL x.data) := by
  induction ts generalizing t with
  | nil =>
    show splitOnCL sepORl (qtCL t.data) = [qtCL t.data]
    exact splitOnCL_no_occ _ _ (noOcc_OR_qt _ (h t (by simp)))
  | cons u ts' ih =>
    show splitOnCL sepORl
        (qtCL t.data ++ sepORl ++ orJoinQ ((u :: ts').map String.data))
      = qtCL t.data :: (u :: ts').map (fun x => qtCL x.data)
    rw [show sepORl = [' ', 'O', 'R'] ++ [' '] from rfl]
    rw [splitOnCL_sep [' ', 'O', 'R'] ' ' _ _ (noOcc_OR_qt_tail t.data (h t (by simp)))]
    rw [show ([' ', 'O', 'R'] ++ [' ']) = sepORl from rfl]
    rw [ih u (fun x hx => h x (by simp at hx ⊢; tauto))]

/-- The lockstep walk of a non-empty device list is non-empty. -/
theorem zipOpt_ne_nil (a : α) (as : List α) (cs : List β) : zipOpt (a :: as) cs ≠ [] := by
  cases cs <;> simp [zipOpt]

/-- Every element of the lockstep walk offers a term on some side. -/
theorem zipOpt_isSome : ∀ (as : List α) (cs : List β),
    ∀ p ∈ zipOpt as cs, p.1.isSome ∨ p.2.isSome := by
  intro as
  induction as with
  | nil =>
    intro cs p hp
    rw [zipOpt] at hp
    obtain ⟨b, -, rfl⟩ := List.mem_map.mp hp
    simp
  | cons a as ih =>
    intro cs p hp
    cases cs with
    | nil =>
      rcases List.mem_cons.mp hp with rfl | hp'
      · simp
      · exact ih [] p hp'
    | cons c cs =>
      rcases List.mem_cons.mp hp with rfl | hp'
      · simp
      · exact ih cs p hp'

/-- When every remaining term fits the budget, the `split_terms` loop
accepts everything and emits exactly one batch holding the whole
(stripped) remaining term lists appended to the in-progress batch. -/
theorem splitLoop_allFit (bs : Nat) :
    ∀ (l : List (Option String × Option String)) (curD curI : List String) (curLen : Nat),
      l ≠ [] → (∀ p ∈ l, p.1.isSome ∨ p.2.isSome) →
      curLen + ((l.filterMap Prod.fst).map (fun t => termCost (pyStrip "() " t))).sum
        + ((l.filterMap Prod.snd).map (fun t => termCost (pyStrip "() " t))).sum < bs →
      (curD ≠ [] ∨ l.filterMap Prod.fst ≠ []) →
      (curI ≠ [] ∨ l.filterMap Prod.snd ≠ []) →
      splitLoop bs l curD curI curLen
        = [(curD ++ (l.filterMap Prod.fst).map (pyStrip "() "),
            curI ++ (l.filterMap Prod.snd).map (pyStrip "() "))] := by
  intro l
  induction l with
  | nil => intro curD curI curLen hne _ _ _ _; exact absurd rfl hne
  | cons x rest ih =>
    intro curD curI curLen _ hSome hfit hD hI
    obtain ⟨od, oi⟩ := x
    rcases od with _ | d
    · rcases oi with _ | i
      · have := hSome (none, none) (List.mem_cons_self _ _)
        simp at this
      · rw [show ((none, some i) :: rest).filterMap
            (Prod.fst (α := Option String) (β := Option String))
            = rest.filterMap Prod.fst from by simp [List.filterMap_cons]] at hfit hD ⊢
        rw [show ((none, some i) :: rest).filterMap
            (Prod.snd (α := Option String) (β := Option String))
            = i :: rest.filterMap Prod.snd from by simp [List.filterMap_cons]] at hfit hI ⊢
        rw [List.map_cons, List.sum_cons] at hfit
        have hi_fit : curLen + (quoteLen (pyStrip "() " i) + 4) < bs := by
          simp only [termCost] at hfit
          omega
        rcases rest with _ | ⟨y, rest'⟩
        · have hcurD : curD ≠ [] := by
            rcases hD with h | h
            · exact h
            · simp at h
          rw [splitLoop]
          simp [tryAdd, hi_fit, hcurD, splitLoop]
        · have hstep : splitLoop bs ((none, some i) :: y :: rest') curD curI curLen
              = splitLoop bs (y :: rest') curD (curI ++ [pyStrip "() " i])
                  (curLen + (quoteLen (pyStrip "() " i) + 4)) := by
            rw [splitLoop]
            simp [tryAdd, hi_fit]
          rw [hstep]
          rw [ih curD (curI ++ [pyStrip "() " i]) (curLen + (quoteLen (pyStrip "() " i) + 4))
            (by simp) (fun p hp => hSome p (List.mem_cons_of_mem _ hp))
            (by simp only [termCost] at hfit ⊢; omega)
            (by rcases hD with h | h
                · exact Or.inl h
                · exact Or.inr h)
            (Or.inl (by simp))]
          simp
    · rcases oi with _ | i
      · rw [show ((some d, none) :: rest).filterMap
            (Prod.fst (α := Option String) (β := Option String))
            = d :: rest.filterMap Prod.fst from by simp [List.filterMap_cons]] at hfit hD ⊢
        rw [show ((some d, none) :: rest).filterMap
            (Prod.snd (α := Option String) (β := Option String))
            = rest.filterMap Prod.snd from by simp [List.filterMap_cons]] at hfit hI ⊢
        rw [List.map_cons, List.sum_cons] at hfit
        have hd_fit : curLen + (quoteLen (pyStrip "() " d) + 4) < bs := by
          simp only [termCost] at hfit
          omega
        rcases rest with _ | ⟨y, rest'⟩
        · have hcurI : curI ≠ [] := by
            rcases hI with h | h
            · exact h
            · simp at h
          rw [splitLoop]
          simp [tryAdd, hd_fit, hcurI, splitLoop]
        · have hstep : splitLoop bs ((some d, none) :: y :: rest') curD curI curLen
              = splitLoop bs (y :: rest') (curD ++ [pyStrip "() " d]) curI
                  (curLen + (quoteLen (pyStrip "() " d) + 4)) := by
            rw [splitLoop]
            simp [tryAdd, hd_fit]
          rw [hstep]
          rw [ih (curD ++ [pyStrip "() " d]) curI (curLen + (quoteLen (pyStrip "() " d) + 4))
            (by simp) (fun p hp => hSome p (List.mem_cons_of_mem _ hp))
            (by simp only [termCost] at hfit ⊢; omega)
            (Or.inl (by simp))
            (by rcases hI with h | h
                · exact Or.inl h
                · exact Or.inr h)]
          simp
      · rw [show ((some d, some i) :: rest).filterMap
            (Prod.fst (α := Option String) (β := Option String))
            = d :: rest.filterMap Prod.fst from by simp [List.filterMap_cons]] at hfit hD ⊢
        rw [show ((some d, some i) :: rest).filterMap
            (Prod.snd (α := Option String) (β := Option String))
            = i :: rest.filterMap Prod.snd from by simp [List.filterMap_cons]] at hfit hI ⊢
        rw [List.map_cons, List.sum_cons, List.map_cons, List.sum_cons] at hfit
        have hd_fit : curLen + (quoteLen (pyStrip "() " d) + 4) < bs := by
          simp only [termCost] at hfit
          omega
        have hi_fit : curLen + (quoteLen (pyStrip "() " d) + 4)
            + (quoteLen (pyStrip "() " i) + 4) < bs := by
          simp only [termCost] at hfit
          omega
        rcases rest with _ | ⟨y, rest'⟩
        · rw [splitLoop]
          simp [tryAdd, hd_fit, hi_fit, splitLoop]
        · have hstep : splitLoop bs ((some d, some i) :: y :: rest') curD curI curLen
              = splitLoop bs (y :: rest') (curD ++ [pyStrip "() " d])
                  (curI ++ [pyStrip "() " i])
                  (curLen + (quoteLen (pyStrip "() " d) + 4)
                    + (quoteLen (pyStrip "() " i) + 4)) := by
            rw [splitLoop]
            simp [tryAdd, hd_fit, hi_fit]
          rw [hstep]
          rw [ih (curD ++ [pyStrip "() " d]) (curI ++ [pyStrip "() " i])
            (curLen + (quoteLen (pyStrip "() " d) + 4) + (quoteLen (pyStrip "() " i) + 4))
            (by simp) (fun p hp => hSome p (List.mem_cons_of_mem _ hp))
            (by simp only [termCost] at hfit ⊢; omega)
            (Or.inl (by simp)) (Or.inl (by simp))]
          simp

/-- Packaging a quoted character-list back into a string gives the
quoted term. -/
theorem mk_qtCL (t : String) : (⟨qtCL t.data⟩ : String) = quoteTerm t :=
  String.ext (data_quoteTerm t).symm

/-- Stripping is the identity on every mapped quoted term. -/
theorem map_pyStrip_quoteTerm (l : List String) :
    (l.map quoteTerm).map (pyStrip "() ") = l.map quoteTerm := by
  rw [List.map_map]
  exact List.map_congr_left (fun t _ => pyStrip_quoteTerm t)

/-- The per-term loop cost of a quoted term is its estimated encoded
length, since stripping leaves it unchanged. -/
theorem map_cost_quoteTerm (l : List String) :
    ((l.map quoteTerm).map (fun t => termCost (pyStrip "() " t))).sum
      = (l.map (fun t => termCost (quoteTerm t))).sum := by
  rw [List.map_map]
  congr 1
  exact List.map_congr_left (fun t _ => by simp [Function.comp, pyStrip_quoteTerm])

/-- Parsing a composed query recovers the two quoted term lists and an
empty date part, provided the terms contain neither separator. -/
theorem parse_createQuery (d0 : String) (ds' : List String) (i0 : String) (is' : List String)
    (hANDd : ∀ t ∈ d0 :: ds', containsSeq sepANDl t.data = false)
    (hANDi : ∀ t ∈ i0 :: is', containsSeq sepANDl t.data = false)
    (hORd : ∀ t ∈ d0 :: ds', containsSeq sepORl t.data = false)
    (hORi : ∀ t ∈ i0 :: is', containsSeq sepORl t.data = false) :
    deviceTermsOf (createQuery (d0 :: ds') (i0 :: is')) = (d0 :: ds').map quoteTerm ∧
      indicatorTermsOf (createQuery (d0 :: ds') (i0 :: is')) = (i0 :: is').map quoteTerm ∧
      (parsedParts (createQuery (d0 :: ds') (i0 :: is'))).length = 2 ∧
      datePartOf (createQuery (d0 :: ds') (i0 :: is')) = "" := by
  have hdJ : containsSeq sepANDl (orJoinQ ((d0 :: ds').map String.data)) = false := by
    apply noOcc_AND_orJoinQ
    intro t ht
    obtain ⟨x, hx, rfl⟩ := List.mem_map.mp ht
    exact hANDd x hx
  have hiJ : containsSeq sepANDl (orJoinQ ((i0 :: is').map String.data)) = false := by
    apply noOcc_AND_orJoinQ
    intro t ht
    obtain ⟨x, hx, rfl⟩ := List.mem_map.mp ht
    exact hANDi x hx
  have hparts := parsedParts_createQuery (d0 :: ds') (i0 :: is') hdJ hiJ
  have hside : ∀ (t0 : String) (ts : List String),
      (∀ t ∈ t0 :: ts, containsSeq sepORl t.data = false) →
      pySplit " OR " (pyStrip "()"
          ⟨'(' :: (orJoinQ ((t0 :: ts).map String.data) ++ [')'])⟩)
        = (t0 :: ts).map quoteTerm := by
    intro t0 ts hOR
    obtain ⟨rh, hrh⟩ := orJoinQ_head t0.data (ts.map String.data)
    obtain ⟨rl, hrl⟩ := orJoinQ_last t0.data (ts.map String.data)
    have hstrip : pyStrip "()" ⟨'(' :: (orJoinQ ((t0 :: ts).map String.data) ++ [')'])⟩
        = ⟨orJoinQ ((t0 :: ts).map String.data)⟩ := by
      refine String.ext ?_
      show stripCL ("()" : String).data ('(' :: (orJoinQ ((t0 :: ts).map String.data) ++ [')']))
        = orJoinQ ((t0 :: ts).map String.data)
      rw [show ("()" : String).data = ['(', ')'] from rfl]
      exact stripCL_group _ rh rl hrh hrl
    rw [hstrip, pySplit]
    rw [show ((⟨orJoinQ ((t0 :: ts).map String.data)⟩ : String)).data
        = orJoinQ ((t0 :: ts).map String.data) from rfl]
    rw [show (" OR " : String).data = sepORl from rfl]
    rw [splitOnCL_orJoinQ t0 ts hOR]
    rw [List.map_map]
    exact List.map_congr_left (fun x _ => mk_qtCL x)
  refine ⟨?_, ?_, by rw [hparts]; rfl, by rw [datePartOf, hparts]; rfl⟩
  · rw [deviceTermsOf, hparts]
    exact hside d0 ds' hORd
  · rw [indicatorTermsOf, hparts]
    exact hside i0 is' hORi

/-- Claim C7: for non-empty term lists whose terms contain neither
`" AND "` nor `" OR "`, when the total estimated encoded length of all
quoted terms stays strictly under the budget, `split_terms` applied to
`create_query(devices, indicators)` returns exactly the one-element list
containing that composed query unchanged. -/
theorem splitTerms_roundTrip (ds is : List String) (bs : Nat)
    (hds : ds ≠ []) (his : is ≠ [])
    (hterms : ∀ t ∈ ds ++ is,
      containsSeqS " AND " t = false ∧ containsSeqS " OR " t = false)
    (hfit : ((ds ++ is).map (fun t => termCost (quoteTerm t))).sum < bs) :
    splitTerms (createQuery ds is) bs none = [createQuery ds is] := by
  obtain ⟨d0, ds', rfl⟩ := List.exists_cons_of_ne_nil hds
  obtain ⟨i0, is', rfl⟩ := List.exists_cons_of_ne_nil his
  have hANDd : ∀ t ∈ d0 :: ds', containsSeq sepANDl t.data = false :=
    fun t ht => (hterms t (List.mem_append_left _ ht)).1
  have hANDi : ∀ t ∈ i0 :: is', containsSeq sepANDl t.data = false :=
    fun t ht => (hterms t (List.mem_append_right _ ht)).1
  have hORd : ∀ t ∈ d0 :: ds', containsSeq sepORl t.data = false :=
    fun t ht => (hterms t (List.mem_append_left _ ht)).2
  have hORi : ∀ t ∈ i0 :: is', containsSeq sepORl t.data = false :=
    fun t ht => (hterms t (List.mem_append_right _ ht)).2
  obtain ⟨hdev, hind, hlen2, hdate⟩ := parse_createQuery d0 ds' i0 is' hANDd hANDi hORd hORi
  rw [List.map_append, List.sum_append] at hfit
  have hpairs : splitPairs (createQuery (d0 :: ds') (i0 :: is')) bs
      = [((d0 :: ds').map quoteTerm, (i0 :: is').map quoteTerm)] := by
    rw [splitPairs, hdev, hind]
    have hz := zipOpt_filterMap ((d0 :: ds').map quoteTerm) ((i0 :: is').map quoteTerm)
    rw [splitLoop_allFit bs _ [] [] 0
      (by rw [List.map_cons]; exact zipOpt_ne_nil _ _ _)
      (zipOpt_isSome _ _)
      (by rw [hz.1, hz.2, map_cost_quoteTerm, map_cost_quoteTerm]; omega)
      (Or.inr (by rw [hz.1]; simp))
      (Or.inr (by rw [hz.2]; simp))]
    rw [hz.1, hz.2, map_pyStrip_quoteTerm, map_pyStrip_quoteTerm]
    simp
  rw [splitTerms]
  rw [if_neg (by rw [hlen2]; omega)]
  rw [hpairs, hdate]
  rw [List.map_cons, List.map_nil]
  rw [show buildBatch ((d0 :: ds').map quoteTerm) ((i0 :: is').map quoteTerm) ""
      = createQuery (d0 :: ds') (i0 :: is') from by
    rw [buildBatch, createQuery]
    simp]

/-- Witness for C7 on concrete separator-free terms under budget 100. -/
theorem splitTerms_roundTrip_witness :
    (["Hemoblast"] : List String) ≠ [] ∧ (["prostatectomy"] : List String) ≠ [] ∧
      (∀ t ∈ (["Hemoblast"] ++ ["prostatectomy"] : List String),
        containsSeqS " AND " t = false ∧ containsSeqS " OR " t = false) ∧
      ((["Hemoblast"] ++ ["prostatectomy"] : List String).map
        (fun t => termCost (quoteTerm t))).sum < 100 ∧
      splitTerms (createQuery ["Hemoblast"] ["prostatectomy"]) 100 none
        = [createQuery ["Hemoblast"] ["prostatectomy"]] :=
  ⟨by decide, by decide, by decide, by decide,
    splitTerms_roundTrip ["Hemoblast"] ["prostatectomy"] 100 (by decide) (by decide)
      (by decide) (by decide)⟩

end Hulr
